import Mathlib

/-!
Verification of the hook-scheduling and checkpoint-state-aggregation core of
`src/detecter/runner/base_runner.py` (class `BaseRunner`), via a shallow
embedding: hooks are records carrying their kind (Python
`type(h).__qualname__`), an optional assigned priority and an optional opaque
state blob; the runner is a record of the fields `__init__` sets; each method
of the source becomes a Lean function over these records.
-/

namespace Detecter

/-- Modelled from the spec: `get_priority` lives in the external `cvcore`
package (not under `src/`); per the spec, a priority is given either as an
integer or as a symbolic level that resolves to a fixed integer, lower value
dispatching earlier. -/
inductive PriorityArg where
  | int (n : Int)
  | HIGHEST
  | VERY_HIGH
  | HIGH
  | ABOVE_NORMAL
  | NORMAL
  | BELOW_NORMAL
  | LOW
  | VERY_LOW
  | LOWEST
  deriving DecidableEq, Repr

/-- Modelled from the spec: resolution of a symbolic priority level to its
fixed integer (`cvcore.get_priority`, not under `src/`). -/
def get_priority : PriorityArg → Int
  | .int n => n
  | .HIGHEST => 0
  | .VERY_HIGH => 10
  | .HIGH => 30
  | .ABOVE_NORMAL => 40
  | .NORMAL => 50
  | .BELOW_NORMAL => 60
  | .LOW => 70
  | .VERY_LOW => 90
  | .LOWEST => 100

/-- A hook: its kind (`type(h).__qualname__`), the `priority` attribute
(absent until `register_hook` assigns it) and the opaque state returned by its
`state_dict()` (`none` models an empty/falsy state; `load_state_dict v` sets
it to `some v`). -/
structure Hook where
  kind : String
  priority : Option Int
  state : Option Nat
  deriving DecidableEq, Repr

/-- The integer priority of a registered hook (every hook in the registry has
`priority = some p`; the default is never read on reachable states). -/
def priOf (h : Hook) : Int :=
  h.priority.getD 0

/-- The backward scan of `BaseRunner.register_hook` (lines 212-220), expressed
on the reversed registry: walking `self._hooks` from the tail, the new hook is
inserted right after the first hook whose priority is `≤` the new priority;
if none is found it goes to the head. -/
def insertRev (hook : Hook) (p : Int) : List Hook → List Hook
  | [] => [hook]
  | h :: t => if priOf h ≤ p then hook :: h :: t else h :: insertRev hook p t

/-- The registry after the insertion loop of `register_hook`: the backward
scan over `hs` is the forward scan over `hs.reverse`. -/
def insertHookSorted (hs : List Hook) (hook : Hook) (p : Int) : List Hook :=
  (insertRev hook p hs.reverse).reverse

/-- The runner state: the fields of `BaseRunner.__init__` that the verified
core reads or writes (model/optimizer/scheduler are opaque collaborators; the
optimizer is represented by its opaque exported state). -/
structure Runner where
  work_dir : Option String
  mode : Option String
  hooks : List Hook
  epoch : Int
  iter : Int
  inner_iter : Int
  max_epochs : Option Int
  max_iters : Option Int
  optimizer : Nat
  deriving DecidableEq, Repr

/-- `BaseRunner.register_hook` (lines 194-220): raises when the hook already
carries a `priority` attribute, otherwise resolves the priority, assigns it
and inserts the hook by the backward scan. -/
def register_hook (r : Runner) (hook : Hook) (p : PriorityArg) : Except String Runner :=
  if hook.priority.isSome then
    Except.error "priority is a reserved attribute for hooks"
  else
    let pr := get_priority p
    Except.ok { r with hooks := insertHookSorted r.hooks { hook with priority := some pr } pr }

/-- A sequence of `register_hook` calls, each with its priority argument. -/
def registerAll (r : Runner) : List (Hook × PriorityArg) → Except String Runner
  | [] => Except.ok r
  | (h, p) :: rest =>
    match register_hook r h p with
    | Except.error e => Except.error e
    | Except.ok r2 => registerAll r2 rest

/-- The registration sequence with priorities resolved and assigned, in call
order (what the registry holds, before ordering). -/
def assignedHooks (regs : List (Hook × PriorityArg)) : List Hook :=
  regs.map (fun hp => { hp.1 with priority := some (get_priority hp.2) })

/-- The loop of `BaseRunner.call_hook` (lines 238-246), instrumented with the
trace of hooks whose callback was invoked: `f h r` is the semantics of
`getattr(h, fn_name)(self)` on runner state `r` — the updated runner state
and the exception it raised, if any. -/
def call_hook_trace (f : Hook → Runner → Runner × Option String) :
    List Hook → Runner → List Hook × Runner × Option String
  | [], r => ([], r, none)
  | h :: t, r =>
    match f h r with
    | (r2, some e) => ([h], r2, some e)
    | (r2, none) =>
      let res := call_hook_trace f t r2
      (h :: res.1, res.2)

/-- `BaseRunner.call_hook` (lines 238-246): invoke the event-named callback of
every registered hook in registry order; an exception stops the loop and
propagates (second component `some e`). -/
def call_hook (f : Hook → Runner → Runner × Option String) (r : Runner) :
    Runner × Option String :=
  (call_hook_trace f r.hooks r).2

/-- The snapshot `BaseRunner.state_dict` returns (lines 248-261): counters,
the optimizer's opaque state, and the per-hook states as an insertion-ordered
mapping keyed by hook kind (a Python dict, here an association list). -/
structure StateDict where
  iter : Int
  epoch : Int
  optimizer : Nat
  hooks : List (String × Nat)
  deriving DecidableEq, Repr

/-- The hook loop of `state_dict` (lines 250-258): walk the registry in order
accumulating the `hooks_state` dict; a hook with empty state is skipped, and a
hook whose kind is already a key is skipped (collision keeps the first). -/
def hooksStateAux : List Hook → List (String × Nat) → List (String × Nat)
  | [], acc => acc
  | h :: t, acc =>
    match h.state with
    | none => hooksStateAux t acc
    | some v =>
      if acc.any (fun p => p.1 == h.kind) then hooksStateAux t acc
      else hooksStateAux t (acc ++ [(h.kind, v)])

/-- `BaseRunner.state_dict` (lines 248-261). The `ret["hooks"]` key is absent
exactly when the accumulated mapping is empty, which the empty list models. -/
def state_dict (r : Runner) : StateDict :=
  { iter := r.iter, epoch := r.epoch, optimizer := r.optimizer,
    hooks := hooksStateAux r.hooks [] }

/-- The inner scan of `BaseRunner.load_state_dict` (lines 269-276): find the
first registered hook whose kind equals the entry key, give it the state and
break; the flag reports whether a match was found (Python `for ... else`). -/
def applyHookState : List Hook → String → Nat → List Hook × Bool
  | [], _, _ => ([], false)
  | h :: t, key, v =>
    if h.kind == key then ({ h with state := some v } :: t, true)
    else
      let res := applyHookState t key v
      (h :: res.1, res.2)

/-- The warning `load_state_dict` logs for a snapshot entry whose kind matches
no registered hook (line 278). -/
def warnMissing (key : String) : String :=
  "Cannot find the hook " ++ key ++ ", its state_dict is ignored."

/-- The outer loop of `load_state_dict` over the snapshot's hook entries,
threading the runner and the emitted warnings. -/
def applyHookEntries : List (String × Nat) → Runner × List String → Runner × List String
  | [], acc => acc
  | (key, v) :: rest, acc =>
    let res := applyHookState acc.1.hooks key v
    if res.2 then applyHookEntries rest ({ acc.1 with hooks := res.1 }, acc.2)
    else applyHookEntries rest (acc.1, acc.2 ++ [warnMissing key])

/-- `BaseRunner.load_state_dict` (lines 263-278): overwrite the counters and
the optimizer state, then distribute each hook-state entry; returns the
restored runner and the warnings logged for unmatched kinds. -/
def load_state_dict (r : Runner) (sd : StateDict) : Runner × List String :=
  applyHookEntries sd.hooks
    ({ r with iter := sd.iter, epoch := sd.epoch, optimizer := sd.optimizer }, [])

/-- The external checkpoint storage collaborator, reduced to the one
observable this core reads: the prior checkpoint it holds, if any. -/
structure Checkpointer where
  saved : Option StateDict
  deriving DecidableEq, Repr

/-- `DetectionCheckpointer.has_checkpoint`: a prior checkpoint exists. -/
def Checkpointer.has_checkpoint (c : Checkpointer) : Bool :=
  c.saved.isSome

/-- Modelled from the spec: `DetectionCheckpointer.resume_or_load` is not
under `src/`; per the spec and the docstring of `BaseRunner.resume_or_load`,
when resume is requested and a prior checkpoint exists it loads all available
states — counters included, through the runner's `load_state_dict` — and
otherwise it loads only model weights, leaving the counters untouched. -/
def checkpointer_resume_or_load (c : Checkpointer) (r : Runner) (resume : Bool) : Runner :=
  match c.saved with
  | some sd => if resume then (load_state_dict r sd).1 else r
  | none => r

/-- `BaseRunner.resume_or_load` (lines 101-120): delegate to the checkpointer,
then, when resuming and a prior checkpoint exists, advance `iter` and `epoch`
past the last completed unit. -/
def resume_or_load (r : Runner) (c : Checkpointer) (resume : Bool) : Runner :=
  let r1 := checkpointer_resume_or_load c r resume
  if resume && c.has_checkpoint then
    { r1 with iter := r1.iter + 1, epoch := r1.epoch + 1 }
  else r1

/-- The fresh `PeriodicCheckpointer` hook `_register_default_hook` registers
on the main process (line 176): a newly constructed hook carries no priority
attribute yet. -/
def periodicCheckpointerHook : Hook :=
  { kind := "PeriodicCheckpointer", priority := none, state := none }

/-- `BaseRunner.__init__` (lines 38-99): counters start at 0, the registry is
empty, exactly one of the budgets may be set, then the default checkpoint
hook is registered on the main process (priority defaulting to NORMAL). -/
def init (work_dir : Option String) (max_iters max_epochs : Option Int)
    (is_main : Bool) (optimizer : Nat) : Except String Runner :=
  if max_epochs.isSome && max_iters.isSome then
    Except.error "Only one of max_epochs or max_iters can be set."
  else
    let r : Runner :=
      { work_dir := work_dir, mode := none, hooks := [], epoch := 0, iter := 0,
        inner_iter := 0, max_epochs := max_epochs, max_iters := max_iters,
        optimizer := optimizer }
    if is_main then register_hook r periodicCheckpointerHook PriorityArg.NORMAL
    else Except.ok r

/-- The state of the first registered hook of kind `key` that exports a
non-empty state (the source of the snapshot entry for `key`, if any). -/
def firstExported : List Hook → String → Option Nat
  | [], _ => none
  | h :: t, key =>
    match h.state with
    | some v => if h.kind == key then some v else firstExported t key
    | none => firstExported t key

/-- All non-empty hook states in registry order, keyed by kind, collisions
included (the raw material `state_dict` deduplicates). -/
def exportedList (hs : List Hook) : List (String × Nat) :=
  hs.filterMap (fun h => h.state.map (fun v => (h.kind, v)))

/-- The hook loop of `state_dict` with the opaque `h.state_dict()` calls left
effectful: `f h r` returns the exported state and the (possibly updated)
runner state. Specializing `f` to a pure read recovers `hooksStateAux`. -/
def hooksStateEff (f : Hook → Runner → Option Nat × Runner) :
    List Hook → List (String × Nat) → Runner → List (String × Nat) × Runner
  | [], acc, r => (acc, r)
  | h :: t, acc, r =>
    match f h r with
    | (none, r2) => hooksStateEff f t acc r2
    | (some v, r2) =>
      if acc.any (fun p => p.1 == h.kind) then hooksStateEff f t acc r2
      else hooksStateEff f t (acc ++ [(h.kind, v)]) r2

/-- `BaseRunner.state_dict` with the opaque export calls left effectful, in
source order: read the counters, call `self.optimizer.state_dict()`, then run
the hook loop; the final component is the runner state after the call. -/
def state_dict_eff (optExport : Runner → Nat × Runner)
    (hookExport : Hook → Runner → Option Nat × Runner) (r : Runner) :
    StateDict × Runner :=
  let i := r.iter
  let e := r.epoch
  let o := optExport r
  let hs := hooksStateEff hookExport o.2.hooks [] o.2
  ({ iter := i, epoch := e, optimizer := o.1, hooks := hs.1 }, hs.2)

/-- Stable insertion seen from the front: the new hook goes after the maximal
prefix of hooks whose priority is `≤` the new one (proof-side companion of
`insertHookSorted`, to which it is equal on sorted registries). -/
def frontInsert (hook : Hook) (p : Int) : List Hook → List Hook
  | [] => [hook]
  | h :: t => if priOf h ≤ p then h :: frontInsert hook p t else hook :: h :: t

/-- A fresh runner with an empty registry, for registration sequences. -/
def runner0 : Runner :=
  { work_dir := none, mode := none, hooks := [], epoch := 0, iter := 0,
    inner_iter := 0, max_epochs := none, max_iters := none, optimizer := 0 }

/-- Two hooks sharing one kind with different states, and a runner holding
both, for the duplicate-kind scenarios of the spec. -/
def hookH1 : Hook := { kind := "H", priority := some 10, state := some 1 }

def hookH2 : Hook := { kind := "H", priority := some 20, state := some 2 }

def runnerDup : Runner := { runner0 with hooks := [hookH1, hookH2] }

/-- A snapshot holding one entry for the duplicated kind and one entry for a
kind no registered hook has. -/
def sdW : StateDict := { iter := 9, epoch := 2, optimizer := 5, hooks := [("H", 9), ("Z", 3)] }

/-- The duplicate-kind runner with different counters, a target for applying
a restored snapshot. -/
def runnerDupShift : Runner := { runnerDup with iter := 5, epoch := 7, optimizer := 9 }

theorem insertRev_all_gt (hook : Hook) (p : Int) (l : List Hook)
    (hl : ∀ x ∈ l, ¬ priOf x ≤ p) : insertRev hook p l = l ++ [hook] := by
  induction l with
  | nil => rfl
  | cons h t ih =>
    rw [insertRev, if_neg (hl h (List.mem_cons_self h t)),
      ih (fun x hx => hl x (List.mem_cons_of_mem h hx))]
    rfl

theorem insertRev_concat_le (hook : Hook) (p : Int) (h : Hook) (l : List Hook)
    (hp : priOf h ≤ p) : insertRev hook p (l ++ [h]) = insertRev hook p l ++ [h] := by
  induction l with
  | nil => simp [insertRev, hp]
  | cons a t ih =>
    by_cases ha : priOf a ≤ p
    · simp [insertRev, ha]
    · simp [insertRev, ha, ih]

theorem insertHookSorted_eq_frontInsert (hs : List Hook) (hook : Hook) (p : Int)
    (hsort : List.Sorted (fun a b => priOf a ≤ priOf b) hs) :
    insertHookSorted hs hook p = frontInsert hook p hs := by
  induction hs with
  | nil => rfl
  | cons h t ih =>
    rw [List.sorted_cons] at hsort
    obtain ⟨hhead, htail⟩ := hsort
    by_cases hp : priOf h ≤ p
    · rw [insertHookSorted, List.reverse_cons, insertRev_concat_le hook p h t.reverse hp,
        List.reverse_append]
      rw [frontInsert, if_pos hp]
      rw [show (insertRev hook p t.reverse).reverse = insertHookSorted t hook p from rfl, ih htail]
      rfl
    · have hall : ∀ x ∈ (h :: t).reverse, ¬ priOf x ≤ p := by
        intro x hx
        rw [List.mem_reverse] at hx
        rcases List.mem_cons.1 hx with rfl | hx
        · exact hp
        · intro hle
          exact hp (le_trans (hhead x hx) hle)
      rw [insertHookSorted, insertRev_all_gt hook p _ hall, List.reverse_append,
        List.reverse_reverse]
      rw [frontInsert, if_neg hp]
      rfl

theorem mem_frontInsert {x hook : Hook} {p : Int} {l : List Hook} :
    x ∈ frontInsert hook p l ↔ x = hook ∨ x ∈ l := by
  induction l with
  | nil => simp [frontInsert]
  | cons h t ih =>
    by_cases hp : priOf h ≤ p
    · rw [frontInsert, if_pos hp]
      simp only [List.mem_cons, ih]
      tauto
    · rw [frontInsert, if_neg hp]
      simp only [List.mem_cons]

theorem sorted_frontInsert {hook : Hook} {p : Int} (hph : priOf hook = p) {l : List Hook}
    (hs : List.Sorted (fun a b => priOf a ≤ priOf b) l) :
    List.Sorted (fun a b => priOf a ≤ priOf b) (frontInsert hook p l) := by
  induction l with
  | nil => simp [frontInsert]
  | cons h t ih =>
    rw [List.sorted_cons] at hs
    obtain ⟨hhead, htail⟩ := hs
    by_cases hp : priOf h ≤ p
    · rw [frontInsert, if_pos hp, List.sorted_cons]
      refine ⟨fun b hb => ?_, ih htail⟩
      rcases mem_frontInsert.1 hb with rfl | hb
      · rw [hph]; exact hp
      · exact hhead b hb
    · rw [frontInsert, if_neg hp, List.sorted_cons]
      refine ⟨fun b hb => ?_, List.sorted_cons.2 ⟨hhead, htail⟩⟩
      rcases List.mem_cons.1 hb with rfl | hb
      · rw [hph]; exact le_of_lt (lt_of_not_le hp)
      · exact le_trans (hph ▸ le_of_lt (lt_of_not_le hp)) (hhead b hb)

theorem filter_frontInsert {hook : Hook} {p : Int} (hph : priOf hook = p) {l : List Hook}
    (hs : List.Sorted (fun a b => priOf a ≤ priOf b) l) (q : Int) :
    (frontInsert hook p l).filter (fun x => priOf x == q)
      = l.filter (fun x => priOf x == q) ++ if p == q then [hook] else [] := by
  induction l with
  | nil =>
    rw [frontInsert, List.filter_cons]
    simp [hph]
  | cons h t ih =>
    rw [List.sorted_cons] at hs
    obtain ⟨hhead, htail⟩ := hs
    by_cases hp : priOf h ≤ p
    · rw [frontInsert, if_pos hp, List.filter_cons, List.filter_cons]
      by_cases hq : priOf h == q
      · simp only [hq, if_true, ih htail, List.cons_append]
      · simp only [hq]
        simp only [Bool.false_eq_true, if_false, ih htail]
    · rw [frontInsert, if_neg hp, List.filter_cons]
      by_cases hpq : p == q
      · have hnil : (h :: t).filter (fun x => priOf x == q) = [] := by
          rw [List.filter_eq_nil_iff]
          intro a ha
          have h1 : priOf h ≤ priOf a := by
            rcases List.mem_cons.1 ha with rfl | ha
            · exact le_refl _
            · exact hhead a ha
          have h2 : p < priOf a := lt_of_lt_of_le (lt_of_not_le hp) h1
          have h3 : q < priOf a := by rwa [← (beq_iff_eq.mp hpq : p = q)]
          simp [Int.ne_of_gt h3]
        rw [hnil, hpq]
        simp [hph, hpq, hnil]
      · simp only [hph, hpq]
        simp only [Bool.false_eq_true, if_false, List.append_nil]

def hookA : Hook := { kind := "A", priority := none, state := none }
def hookB : Hook := { kind := "B", priority := none, state := none }
def hookC : Hook := { kind := "C", priority := none, state := none }

def regsABC : List (Hook × PriorityArg) :=
  [(hookA, PriorityArg.int 10), (hookB, PriorityArg.int 10), (hookC, PriorityArg.int 5)]

def rexABC : Runner :=
  { runner0 with hooks :=
      [{ kind := "C", priority := some 5, state := none },
       { kind := "A", priority := some 10, state := none },
       { kind := "B", priority := some 10, state := none }] }

theorem registerAll_sorted_stable (regs : List (Hook × PriorityArg)) :
    ∀ (r : Runner) (L : List Hook) (r2 : Runner),
      List.Sorted (fun a b => priOf a ≤ priOf b) r.hooks →
      (∀ q : Int, r.hooks.filter (fun x => priOf x == q) = L.filter (fun x => priOf x == q)) →
      registerAll r regs = Except.ok r2 →
      List.Sorted (fun a b => priOf a ≤ priOf b) r2.hooks ∧
      ∀ q : Int, r2.hooks.filter (fun x => priOf x == q)
        = (L ++ assignedHooks regs).filter (fun x => priOf x == q) := by
  induction regs with
  | nil =>
    intro r L r2 hsort hfil hreg
    cases hreg
    exact ⟨hsort, by simpa [assignedHooks] using hfil⟩
  | cons hp rest ih =>
    intro r L r2 hsort hfil hreg
    obtain ⟨h, p⟩ := hp
    rw [registerAll, register_hook] at hreg
    by_cases hpr : h.priority.isSome
    · rw [if_pos hpr] at hreg
      cases hreg
    · rw [if_neg hpr] at hreg
      set h2 : Hook := { h with priority := some (get_priority p) } with hh2
      have hph : priOf h2 = get_priority p := by simp [hh2, priOf]
      have hins : insertHookSorted r.hooks h2 (get_priority p)
          = frontInsert h2 (get_priority p) r.hooks :=
        insertHookSorted_eq_frontInsert r.hooks h2 (get_priority p) hsort
      have hstep := ih { r with hooks := insertHookSorted r.hooks h2 (get_priority p) }
        (L ++ [h2]) r2 ?_ ?_ hreg
      · refine ⟨hstep.1, fun q => ?_⟩
        rw [hstep.2 q]
        have : (L ++ [h2]) ++ assignedHooks rest = L ++ assignedHooks ((h, p) :: rest) := by
          simp [assignedHooks, hh2]
        rw [this]
      · simpa [hins] using sorted_frontInsert hph hsort
      · intro q
        simp only [hins]
        rw [filter_frontInsert hph hsort q, hfil q, List.filter_append]
        congr 1
        rw [List.filter_cons]
        by_cases hq : get_priority p == q
        · simp [hph, hq]
        · simp [hph, hq]

/-- Claim C1: every sequence of successful `register_hook` calls keeps the
registry sorted by non-decreasing priority, hooks with equal priority appear
in registration order (for each priority value, the registry's hooks of that
priority are exactly the registered ones in call order), and the concrete
scenario A(10), B(10), C(5) registered in order A, B, C yields C, A, B. -/
theorem c1_registry_sorted_stable (regs : List (Hook × PriorityArg)) (r : Runner)
    (hreg : registerAll runner0 regs = Except.ok r) :
    List.Sorted (fun a b => priOf a ≤ priOf b) r.hooks ∧
    (∀ q : Int, r.hooks.filter (fun x => priOf x == q)
        = (assignedHooks regs).filter (fun x => priOf x == q)) ∧
    (∃ rex : Runner, registerAll runner0 regsABC = Except.ok rex ∧
      rex.hooks.map Hook.kind = ["C", "A", "B"]) := by
  have hmain := registerAll_sorted_stable regs runner0 [] r
    (by rw [show runner0.hooks = [] from rfl]; exact List.sorted_nil) (by intro q; rfl) hreg
  refine ⟨hmain.1, fun q => by simpa using hmain.2 q, ⟨rexABC, by rfl, by decide⟩⟩

theorem c1_registry_sorted_stable_witness :
    List.Sorted (fun a b => priOf a ≤ priOf b) rexABC.hooks ∧
    (∀ q : Int, rexABC.hooks.filter (fun x => priOf x == q)
        = (assignedHooks regsABC).filter (fun x => priOf x == q)) ∧
    (∃ rex : Runner, registerAll runner0 regsABC = Except.ok rex ∧
      rex.hooks.map Hook.kind = ["C", "A", "B"]) :=
  c1_registry_sorted_stable regsABC rexABC (by rfl)


theorem call_hook_trace_ok (f : Hook → Runner → Runner × Option String) (hs : List Hook) :
    ∀ r r2, (call_hook_trace f hs r).2 = (r2, none) → (call_hook_trace f hs r).1 = hs := by
  induction hs with
  | nil => intro r r2 _; rfl
  | cons h t ih =>
    intro r r2 hres
    rcases hf : f h r with ⟨ra, oe⟩
    cases oe with
    | some e =>
      simp only [call_hook_trace, hf] at hres
      exact absurd (congrArg Prod.snd hres) (by simp)
    | none =>
      simp only [call_hook_trace, hf] at hres ⊢
      rw [ih ra r2 hres]

theorem call_hook_trace_err (f : Hook → Runner → Runner × Option String) (hs : List Hook) :
    ∀ r r2 e, (call_hook_trace f hs r).2 = (r2, some e) →
      ∃ pre bad post r1, hs = pre ++ bad :: post ∧
        (call_hook_trace f hs r).1 = pre ++ [bad] ∧
        call_hook_trace f pre r = (pre, r1, none) ∧
        f bad r1 = (r2, some e) := by
  induction hs with
  | nil => intro r r2 e hres; cases hres
  | cons h t ih =>
    intro r r2 e hres
    rcases hf : f h r with ⟨ra, oe⟩
    cases oe with
    | some e0 =>
      simp only [call_hook_trace, hf] at hres
      refine ⟨[], h, t, r, rfl, ?_, rfl, ?_⟩
      · simp [call_hook_trace, hf]
      · rw [hf]
        exact hres
    | none =>
      simp only [call_hook_trace, hf] at hres
      obtain ⟨pre, bad, post, r1, ht, htr, hpre, hbad⟩ := ih ra r2 e hres
      refine ⟨h :: pre, bad, post, r1, by rw [ht]; rfl, ?_, ?_, hbad⟩
      · simp only [call_hook_trace, hf]
        rw [htr]
        rfl
      · simp only [call_hook_trace, hf]
        rw [hpre]

/-- Claim C8: `call_hook` invokes every registered hook in registry order
passing the runner state; a raising hook stops the dispatch immediately — the
invocation trace ends at the failing hook, its exception is the one returned,
and the state it received is the one produced by the hooks before it (their
effects are not rolled back). -/
theorem c8_dispatch_order_and_propagation (f : Hook → Runner → Runner × Option String)
    (r : Runner) :
    (∀ r2, call_hook f r = (r2, none) → (call_hook_trace f r.hooks r).1 = r.hooks) ∧
    (∀ r2 e, call_hook f r = (r2, some e) →
      ∃ pre bad post r1, r.hooks = pre ++ bad :: post ∧
        (call_hook_trace f r.hooks r).1 = pre ++ [bad] ∧
        call_hook_trace f pre r = (pre, r1, none) ∧
        f bad r1 = (r2, some e)) := by
  exact ⟨fun r2 h => call_hook_trace_ok f r.hooks r r2 h,
    fun r2 e h => call_hook_trace_err f r.hooks r r2 e h⟩

/-- Claim C6: `register_hook` fails exactly when the hook already carries an
assigned priority attribute; on success the hook enters the registry with its
priority assigned exactly once (it had none, the stored copy has exactly the
resolved one) and every other runner field is unchanged. -/
theorem c6_register_reserved_priority (r : Runner) (hook : Hook) (p : PriorityArg) :
    ((∃ e, register_hook r hook p = Except.error e) ↔ hook.priority.isSome) ∧
    (∀ r2, register_hook r hook p = Except.ok r2 →
      hook.priority = none ∧
      r2.hooks = insertHookSorted r.hooks { hook with priority := some (get_priority p) }
        (get_priority p) ∧
      r2.iter = r.iter ∧ r2.epoch = r.epoch ∧ r2.inner_iter = r.inner_iter ∧
      r2.mode = r.mode ∧ r2.optimizer = r.optimizer ∧
      r2.max_epochs = r.max_epochs ∧ r2.max_iters = r.max_iters) := by
  constructor
  · constructor
    · rintro ⟨e, he⟩
      by_contra hn
      rw [register_hook, if_neg hn] at he
      cases he
    · intro hs
      exact ⟨_, by rw [register_hook, if_pos hs]⟩
  · intro r2 h2
    by_cases hs : hook.priority.isSome
    · rw [register_hook, if_pos hs] at h2
      cases h2
    · rw [register_hook, if_neg hs] at h2
      cases h2
      exact ⟨Option.not_isSome_iff_eq_none.mp hs, rfl, rfl, rfl, rfl, rfl, rfl, rfl, rfl⟩

/-- Claim C7: construction fails exactly when both `max_epochs` and
`max_iters` are set; with neither or exactly one set it succeeds and the
constructed runner records the requested budgets. -/
theorem c7_init_exclusive_budgets (wd : Option String) (mi me : Option Int)
    (main : Bool) (opt : Nat) :
    ((∃ e, init wd mi me main opt = Except.error e) ↔ (me.isSome ∧ mi.isSome)) ∧
    (¬ (me.isSome ∧ mi.isSome) →
      ∃ r0, init wd mi me main opt = Except.ok r0 ∧
        r0.max_epochs = me ∧ r0.max_iters = mi) := by
  by_cases hb : me.isSome ∧ mi.isSome
  · have hbb : (me.isSome && mi.isSome) = true := by
      rw [Bool.and_eq_true]
      exact ⟨hb.1, hb.2⟩
    constructor
    · exact ⟨fun _ => hb, fun _ => ⟨_, by rw [init, if_pos hbb]⟩⟩
    · intro hn
      exact absurd hb hn
  · have hbb : ¬ (me.isSome && mi.isSome) = true := by
      rw [Bool.and_eq_true]
      exact fun hc => hb ⟨hc.1, hc.2⟩
    have hok : ∃ r0, init wd mi me main opt = Except.ok r0 ∧
        r0.max_epochs = me ∧ r0.max_iters = mi := by
      rw [init, if_neg hbb]
      by_cases hm : main
      · rw [if_pos hm, register_hook]
        exact ⟨_, rfl, rfl, rfl⟩
      · rw [if_neg hm]
        exact ⟨_, rfl, rfl, rfl⟩
    constructor
    · constructor
      · rintro ⟨e, he⟩
        obtain ⟨r0, hr0, _⟩ := hok
        rw [hr0] at he
        cases he
      · intro hc
        exact absurd hc hb
    · intro _
      exact hok

theorem hooksStateEff_pure (f : Hook → Runner → Option Nat × Runner)
    (hf : ∀ h s, (f h s).2 = s) (hs : List Hook) :
    ∀ acc r, (hooksStateEff f hs acc r).2 = r := by
  induction hs with
  | nil => intro acc r; rfl
  | cons h t ih =>
    intro acc r
    rcases hfr : f h r with ⟨sd, r2⟩
    have hr2 : r2 = r := by
      have := hf h r
      rw [hfr] at this
      exact this
    cases sd with
    | none =>
      simp only [hooksStateEff, hfr]
      rw [ih acc r2, hr2]
    | some v =>
      simp only [hooksStateEff, hfr]
      by_cases hc : acc.any (fun p => p.1 == h.kind)
      · rw [if_pos hc, ih acc r2, hr2]
      · rw [if_neg hc, ih _ r2, hr2]

theorem hooksStateEff_pure_eq (hs : List Hook) :
    ∀ acc r, hooksStateEff (fun h s => (h.state, s)) hs acc r = (hooksStateAux hs acc, r) := by
  induction hs with
  | nil => intro acc r; rfl
  | cons h t ih =>
    intro acc r
    cases hstate : h.state with
    | none =>
      simp only [hooksStateEff, hooksStateAux, hstate]
      rw [ih acc r]
    | some v =>
      simp only [hooksStateEff, hooksStateAux, hstate]
      by_cases hc : acc.any (fun p => p.1 == h.kind)
      · rw [if_pos hc, if_pos hc, ih acc r]
      · rw [if_neg hc, if_neg hc, ih _ r]

/-- Claim C9: `state_dict` is a pure read: with the opaque export calls left
effectful but assumed to be pure reads, the runner state after the call is
exactly the state before it (all counters, the registry and the mode
included), and with the actual pure exports the produced snapshot is the one
`state_dict` computes. -/
theorem c9_state_dict_pure (optExport : Runner → Nat × Runner)
    (hookExport : Hook → Runner → Option Nat × Runner) (r : Runner)
    (hopt : ∀ s, (optExport s).2 = s) (hhook : ∀ h s, (hookExport h s).2 = s) :
    (state_dict_eff optExport hookExport r).2 = r ∧
    (state_dict_eff optExport hookExport r).2.iter = r.iter ∧
    (state_dict_eff optExport hookExport r).2.epoch = r.epoch ∧
    (state_dict_eff optExport hookExport r).2.inner_iter = r.inner_iter ∧
    (state_dict_eff optExport hookExport r).2.hooks = r.hooks ∧
    (state_dict_eff optExport hookExport r).2.mode = r.mode ∧
    (state_dict_eff (fun s => (s.optimizer, s)) (fun h s => (h.state, s)) r).1
      = state_dict r := by
  have h2 : (state_dict_eff optExport hookExport r).2 = r := by
    rw [state_dict_eff]
    simp only
    rw [hooksStateEff_pure hookExport hhook _ _ _, hopt r]
  refine ⟨h2, by rw [h2], by rw [h2], by rw [h2], by rw [h2], by rw [h2], ?_⟩
  rw [state_dict_eff, state_dict]
  simp only
  rw [hooksStateEff_pure_eq]

theorem c9_state_dict_pure_witness :
    (state_dict_eff (fun s => (s.optimizer, s)) (fun h s => (h.state, s)) rexABC).2 = rexABC ∧
    (state_dict_eff (fun s => (s.optimizer, s)) (fun h s => (h.state, s)) rexABC).2.iter
      = rexABC.iter ∧
    (state_dict_eff (fun s => (s.optimizer, s)) (fun h s => (h.state, s)) rexABC).2.epoch
      = rexABC.epoch ∧
    (state_dict_eff (fun s => (s.optimizer, s)) (fun h s => (h.state, s)) rexABC).2.inner_iter
      = rexABC.inner_iter ∧
    (state_dict_eff (fun s => (s.optimizer, s)) (fun h s => (h.state, s)) rexABC).2.hooks
      = rexABC.hooks ∧
    (state_dict_eff (fun s => (s.optimizer, s)) (fun h s => (h.state, s)) rexABC).2.mode
      = rexABC.mode ∧
    (state_dict_eff (fun s => (s.optimizer, s)) (fun h s => (h.state, s)) rexABC).1
      = state_dict rexABC :=
  c9_state_dict_pure (fun s => (s.optimizer, s)) (fun h s => (h.state, s)) rexABC
    (fun _ => rfl) (fun _ _ => rfl)


theorem applyHookEntries_runner (es : List (String × Nat)) :
    ∀ (r : Runner) (ws : List String),
      (applyHookEntries es (r, ws)).1 = { r with hooks := (applyHookEntries es (r, ws)).1.hooks } := by
  induction es with
  | nil => intro r ws; rfl
  | cons kv rest ih =>
    intro r ws
    obtain ⟨key, v⟩ := kv
    rw [applyHookEntries]
    by_cases hfound : (applyHookState r.hooks key v).2
    · rw [if_pos hfound]
      exact ih { r with hooks := (applyHookState r.hooks key v).1 } ws
    · rw [if_neg hfound]
      exact ih r (ws ++ [warnMissing key])

theorem load_state_dict_counters (r : Runner) (sd : StateDict) :
    (load_state_dict r sd).1.iter = sd.iter ∧ (load_state_dict r sd).1.epoch = sd.epoch ∧
    (load_state_dict r sd).1.optimizer = sd.optimizer := by
  rw [load_state_dict, applyHookEntries_runner]
  exact ⟨rfl, rfl, rfl⟩

/-- Claim C2: after `resume_or_load`, when resuming and the storage
collaborator holds a prior checkpoint, `iter` and `epoch` are the restored
snapshot's values plus exactly one; when not resuming or when no checkpoint
exists, the counters keep their pre-call values; and a freshly constructed
runner starts at `iter = 0, epoch = 0`. -/
theorem c2_resume_increments_counters (r : Runner) (c : Checkpointer) (resume : Bool) :
    (∀ sd, c.saved = some sd → resume = true →
      (resume_or_load r c resume).iter = sd.iter + 1 ∧
      (resume_or_load r c resume).epoch = sd.epoch + 1) ∧
    ((resume = false ∨ c.saved = none) →
      (resume_or_load r c resume).iter = r.iter ∧
      (resume_or_load r c resume).epoch = r.epoch) ∧
    (∀ wd mi me main opt r0, init wd mi me main opt = Except.ok r0 →
      r0.iter = 0 ∧ r0.epoch = 0) := by
  refine ⟨?_, ?_, ?_⟩
  · rintro sd hsd rfl
    have hc : c.has_checkpoint = true := by
      rw [Checkpointer.has_checkpoint, hsd]
      rfl
    rw [resume_or_load]
    simp only [checkpointer_resume_or_load, hsd, if_pos rfl, hc, Bool.and_self, if_true]
    obtain ⟨hi, he, _⟩ := load_state_dict_counters r sd
    exact ⟨by rw [hi], by rw [he]⟩
  · intro hcase
    rcases hcase with rfl | hnone
    · rw [resume_or_load]
      simp only [Bool.false_and, if_false]
      cases hsd : c.saved with
      | none => simp [checkpointer_resume_or_load, hsd]
      | some sd => simp [checkpointer_resume_or_load, hsd]
    · rw [resume_or_load]
      have hc : c.has_checkpoint = false := by
        rw [Checkpointer.has_checkpoint, hnone]
        rfl
      simp only [checkpointer_resume_or_load, hnone, hc, Bool.and_false, if_false]
      simp
  · intro wd mi me main opt r0 h0
    rw [init] at h0
    by_cases hb : (me.isSome && mi.isSome) = true
    · rw [if_pos hb] at h0
      cases h0
    · rw [if_neg hb] at h0
      by_cases hm : main
      · rw [if_pos hm, register_hook] at h0
        simp only [periodicCheckpointerHook, Option.isSome_none, Bool.false_eq_true,
          if_false] at h0
        cases h0
        exact ⟨rfl, rfl⟩
      · rw [if_neg hm] at h0
        cases h0
        exact ⟨rfl, rfl⟩


theorem keys_ne_of_not_any {acc : List (String × Nat)} {k : String}
    (h : ¬ (acc.any (fun p => p.1 == k)) = true) : ∀ p ∈ acc, p.1 ≠ k := by
  intro p hp
  rw [List.any_eq_true] at h
  push_neg at h
  have := h p hp
  intro hk
  rw [hk] at this
  simp at this

theorem hooksStateAux_prefix (hs : List Hook) :
    ∀ acc, ∃ rest, hooksStateAux hs acc = acc ++ rest := by
  induction hs with
  | nil => intro acc; exact ⟨[], by simp [hooksStateAux]⟩
  | cons h t ih =>
    intro acc
    cases hstate : h.state with
    | none =>
      simp only [hooksStateAux, hstate]
      exact ih acc
    | some v =>
      simp only [hooksStateAux, hstate]
      by_cases hc : (acc.any (fun p => p.1 == h.kind)) = true
      · rw [if_pos hc]
        exact ih acc
      · rw [if_neg hc]
        obtain ⟨rest, hrest⟩ := ih (acc ++ [(h.kind, v)])
        exact ⟨(h.kind, v) :: rest, by rw [hrest, List.append_assoc]; rfl⟩

theorem hooksStateAux_keys_distinct (hs : List Hook) :
    ∀ acc, acc.Pairwise (fun p q => p.1 ≠ q.1) →
      (hooksStateAux hs acc).Pairwise (fun p q => p.1 ≠ q.1) := by
  induction hs with
  | nil => intro acc hd; exact hd
  | cons h t ih =>
    intro acc hd
    cases hstate : h.state with
    | none =>
      simp only [hooksStateAux, hstate]
      exact ih acc hd
    | some v =>
      simp only [hooksStateAux, hstate]
      by_cases hc : (acc.any (fun p => p.1 == h.kind)) = true
      · rw [if_pos hc]
        exact ih acc hd
      · rw [if_neg hc]
        refine ih _ ?_
        rw [List.pairwise_append]
        refine ⟨hd, List.pairwise_singleton _ _, ?_⟩
        intro p hp q hq
        rw [List.mem_singleton] at hq
        rw [hq]
        exact keys_ne_of_not_any hc p hp

theorem mem_hooksStateAux (hs : List Hook) :
    ∀ acc K w, (K, w) ∈ hooksStateAux hs acc →
      (K, w) ∈ acc ∨ ((∀ p ∈ acc, p.1 ≠ K) ∧ firstExported hs K = some w) := by
  induction hs with
  | nil =>
    intro acc K w hm
    exact Or.inl hm
  | cons h t ih =>
    intro acc K w hm
    cases hstate : h.state with
    | none =>
      simp only [hooksStateAux, hstate] at hm
      rcases ih acc K w hm with hin | ⟨hkeys, hfe⟩
      · exact Or.inl hin
      · exact Or.inr ⟨hkeys, by simp only [firstExported, hstate]; exact hfe⟩
    | some v =>
      simp only [hooksStateAux, hstate] at hm
      by_cases hc : (acc.any (fun p => p.1 == h.kind)) = true
      · rw [if_pos hc] at hm
        rcases ih acc K w hm with hin | ⟨hkeys, hfe⟩
        · exact Or.inl hin
        · refine Or.inr ⟨hkeys, ?_⟩
          have hne : ¬ (h.kind == K) = true := by
            rw [List.any_eq_true] at hc
            obtain ⟨p, hp, hpk⟩ := hc
            intro hkk
            exact hkeys p hp (by rw [beq_iff_eq] at hpk hkk; rw [hpk, hkk])
          simp only [firstExported, hstate, if_neg hne]
          exact hfe
      · rw [if_neg hc] at hm
        rcases ih _ K w hm with hin | ⟨hkeys, hfe⟩
        · rw [List.mem_append, List.mem_singleton] at hin
          rcases hin with hin | heq
          · exact Or.inl hin
          · obtain ⟨h1, h2⟩ := Prod.mk.injEq .. ▸ heq
            refine Or.inr ⟨?_, ?_⟩
            · intro p hp
              rw [h1]
              exact keys_ne_of_not_any hc p hp
            · rw [h1, h2]
              simp [firstExported, hstate]
        · refine Or.inr ⟨fun p hp => hkeys p (List.mem_append_left _ hp), ?_⟩
          have hne : ¬ (h.kind == K) = true := by
            intro hkk
            refine hkeys (h.kind, v) (List.mem_append_right _ (List.mem_singleton.mpr rfl)) ?_
            rw [beq_iff_eq] at hkk
            exact hkk
          simp only [firstExported, hstate, if_neg hne]
          exact hfe

theorem hooksStateAux_mem_of_firstExported (hs : List Hook) :
    ∀ acc K w, (∀ p ∈ acc, p.1 ≠ K) → firstExported hs K = some w →
      (K, w) ∈ hooksStateAux hs acc := by
  induction hs with
  | nil =>
    intro acc K w _ hfe
    cases hfe
  | cons h t ih =>
    intro acc K w hkeys hfe
    cases hstate : h.state with
    | none =>
      simp only [firstExported, hstate] at hfe
      simp only [hooksStateAux, hstate]
      exact ih acc K w hkeys hfe
    | some v =>
      simp only [firstExported, hstate] at hfe
      simp only [hooksStateAux, hstate]
      by_cases hkk : (h.kind == K) = true
      · rw [if_pos hkk] at hfe
        have hkeq : h.kind = K := beq_iff_eq.mp hkk
        have hc : ¬ (acc.any (fun p => p.1 == h.kind)) = true := by
          rw [List.any_eq_true]
          rintro ⟨p, hp, hpk⟩
          exact hkeys p hp (by rw [beq_iff_eq] at hpk; rw [hpk, hkeq])
        rw [if_neg hc]
        obtain ⟨rest, hrest⟩ := hooksStateAux_prefix t (acc ++ [(h.kind, v)])
        rw [hrest]
        refine List.mem_append_left _ (List.mem_append_right _ ?_)
        rw [List.mem_singleton, hkeq]
        cases hfe
        rfl
      · rw [if_neg hkk] at hfe
        by_cases hc : (acc.any (fun p => p.1 == h.kind)) = true
        · rw [if_pos hc]
          exact ih acc K w hkeys hfe
        · rw [if_neg hc]
          refine ih _ K w ?_ hfe
          intro p hp
          rw [List.mem_append, List.mem_singleton] at hp
          rcases hp with hp | rfl
          · exact hkeys p hp
          · simp only
            intro hkeq
            rw [hkeq] at hkk
            simp at hkk

theorem hooksStateAux_sublist (hs : List Hook) :
    ∀ acc, (hooksStateAux hs acc).Sublist (acc ++ exportedList hs) := by
  induction hs with
  | nil =>
    intro acc
    simp [hooksStateAux, exportedList]
  | cons h t ih =>
    intro acc
    cases hstate : h.state with
    | none =>
      simp only [hooksStateAux, hstate]
      have hexp : exportedList (h :: t) = exportedList t := by
        simp [exportedList, List.filterMap_cons, hstate]
      rw [hexp]
      exact ih acc
    | some v =>
      simp only [hooksStateAux, hstate]
      have hexp : exportedList (h :: t) = (h.kind, v) :: exportedList t := by
        simp [exportedList, List.filterMap_cons, hstate]
      rw [hexp]
      by_cases hc : (acc.any (fun p => p.1 == h.kind)) = true
      · rw [if_pos hc]
        refine (ih acc).trans ?_
        exact List.Sublist.append_left (List.sublist_cons_self _ _) acc
      · rw [if_neg hc]
        refine (ih (acc ++ [(h.kind, v)])).trans ?_
        rw [List.append_assoc]
        exact List.Sublist.refl _

/-- Claim C4: the snapshot's hook mapping has pairwise distinct kind keys; an
entry `(K, w)` is present exactly when the first-registered hook of kind `K`
exporting a non-empty state exports `w` (empty states skipped, collisions
keep the first); the mapping is a subsequence of the non-empty exports in
registry order; and on the concrete runner holding two hooks of one kind the
snapshot keeps only the first state, without failing. -/
theorem c4_state_dict_aggregation (r : Runner) :
    ((state_dict r).hooks).Pairwise (fun p q => p.1 ≠ q.1) ∧
    (∀ K w, ((K, w) ∈ (state_dict r).hooks ↔ firstExported r.hooks K = some w)) ∧
    ((state_dict r).hooks).Sublist (exportedList r.hooks) ∧
    (state_dict runnerDup).hooks = [("H", 1)] := by
  refine ⟨hooksStateAux_keys_distinct r.hooks [] List.Pairwise.nil, fun K w => ⟨?_, ?_⟩, ?_, ?_⟩
  · intro hm
    rcases mem_hooksStateAux r.hooks [] K w hm with hin | ⟨_, hfe⟩
    · cases hin
    · exact hfe
  · intro hfe
    exact hooksStateAux_mem_of_firstExported r.hooks [] K w (by intro p hp; cases hp) hfe
  · exact hooksStateAux_sublist r.hooks []
  · rfl


theorem applyHookState_not_found (hs : List Hook) (K : String) (v : Nat)
    (hn : ∀ x ∈ hs, x.kind ≠ K) : applyHookState hs K v = (hs, false) := by
  induction hs with
  | nil => rfl
  | cons h t ih =>
    have hne : ¬ (h.kind == K) = true := by
      rw [beq_iff_eq]
      exact hn h (List.mem_cons_self h t)
    rw [applyHookState, if_neg hne, ih (fun x hx => hn x (List.mem_cons_of_mem h hx))]

theorem applyHookState_found (pre : List Hook) (h : Hook) (post : List Hook) (K : String)
    (v : Nat) (hpre : ∀ x ∈ pre, x.kind ≠ K) (hk : h.kind = K) :
    applyHookState (pre ++ h :: post) K v = (pre ++ { h with state := some v } :: post, true) := by
  induction pre with
  | nil =>
    rw [List.nil_append, applyHookState, if_pos (beq_iff_eq.mpr hk)]
    rfl
  | cons a t ih =>
    have hne : ¬ (a.kind == K) = true := by
      rw [beq_iff_eq]
      exact hpre a (List.mem_cons_self a t)
    rw [List.cons_append, applyHookState, if_neg hne,
      ih (fun x hx => hpre x (List.mem_cons_of_mem a hx))]
    rfl

theorem applyHookState_kinds (hs : List Hook) (K : String) (v : Nat) :
    ((applyHookState hs K v).1).map Hook.kind = hs.map Hook.kind := by
  induction hs with
  | nil => rfl
  | cons h t ih =>
    by_cases hkk : (h.kind == K) = true
    · rw [applyHookState, if_pos hkk]
      simp
    · rw [applyHookState, if_neg hkk]
      simp only [List.map_cons]
      rw [ih]

theorem applyHookState_preserves {hs : List Hook} {K K2 : String} {v w : Nat}
    (hne : K2 ≠ K) (hex : ∃ h2 ∈ hs, h2.kind = K2 ∧ h2.state = some w) :
    ∃ h2 ∈ (applyHookState hs K v).1, h2.kind = K2 ∧ h2.state = some w := by
  induction hs with
  | nil =>
    obtain ⟨h2, hm, _⟩ := hex
    cases hm
  | cons h t ih =>
    obtain ⟨h2, hm, hk2, hst⟩ := hex
    by_cases hkk : (h.kind == K) = true
    · rw [applyHookState, if_pos hkk]
      rcases List.mem_cons.1 hm with rfl | hm
      · exact absurd (hk2 ▸ beq_iff_eq.mp hkk) hne
      · exact ⟨h2, List.mem_cons_of_mem _ hm, hk2, hst⟩
    · rw [applyHookState, if_neg hkk]
      rcases List.mem_cons.1 hm with rfl | hm
      · exact ⟨h2, List.mem_cons_self _ _, hk2, hst⟩
      · obtain ⟨h3, hm3, hp3⟩ := ih ⟨h2, hm, hk2, hst⟩
        exact ⟨h3, List.mem_cons_of_mem _ hm3, hp3⟩

theorem applyHookState_applies {hs : List Hook} {K : String} (v : Nat)
    (hex : ∃ h2 ∈ hs, h2.kind = K) :
    (∃ h2 ∈ (applyHookState hs K v).1, h2.kind = K ∧ h2.state = some v) ∧
    (applyHookState hs K v).2 = true := by
  induction hs with
  | nil =>
    obtain ⟨h2, hm, _⟩ := hex
    cases hm
  | cons h t ih =>
    obtain ⟨h2, hm, hk2⟩ := hex
    by_cases hkk : (h.kind == K) = true
    · rw [applyHookState, if_pos hkk]
      exact ⟨⟨{ h with state := some v }, List.mem_cons_self _ _, beq_iff_eq.mp hkk, rfl⟩, rfl⟩
    · rw [applyHookState, if_neg hkk]
      rcases List.mem_cons.1 hm with rfl | hm
      · exact absurd (beq_iff_eq.mpr hk2) hkk
      · obtain ⟨⟨h3, hm3, hp3⟩, hfl⟩ := ih ⟨h2, hm, hk2⟩
        exact ⟨⟨h3, List.mem_cons_of_mem _ hm3, hp3⟩, hfl⟩

theorem no_kind_of_kinds_eq {hs1 hs2 : List Hook} {K : String}
    (hk : hs1.map Hook.kind = hs2.map Hook.kind)
    (hn : ∀ x ∈ hs1, x.kind ≠ K) : ∀ x ∈ hs2, x.kind ≠ K := by
  intro x hx
  have hmem : x.kind ∈ hs2.map Hook.kind := List.mem_map_of_mem Hook.kind hx
  rw [← hk] at hmem
  obtain ⟨y, hy, hyk⟩ := List.mem_map.1 hmem
  rw [← hyk]
  exact hn y hy

theorem applyHookEntries_warnings_prefix (es : List (String × Nat)) :
    ∀ (r : Runner) (ws : List String),
      ∃ rest, (applyHookEntries es (r, ws)).2 = ws ++ rest := by
  induction es with
  | nil => intro r ws; exact ⟨[], by simp [applyHookEntries]⟩
  | cons kv rest ih =>
    intro r ws
    obtain ⟨key, v⟩ := kv
    rw [applyHookEntries]
    by_cases hfound : (applyHookState r.hooks key v).2
    · rw [if_pos hfound]
      exact ih _ ws
    · rw [if_neg hfound]
      obtain ⟨tail, htail⟩ := ih r (ws ++ [warnMissing key])
      exact ⟨warnMissing key :: tail, by rw [htail, List.append_assoc]; rfl⟩

theorem applyHookEntries_kinds (es : List (String × Nat)) :
    ∀ (r : Runner) (ws : List String),
      ((applyHookEntries es (r, ws)).1.hooks).map Hook.kind = r.hooks.map Hook.kind := by
  induction es with
  | nil => intro r ws; rfl
  | cons kv rest ih =>
    intro r ws
    obtain ⟨key, v⟩ := kv
    rw [applyHookEntries]
    by_cases hfound : (applyHookState r.hooks key v).2
    · rw [if_pos hfound]
      rw [ih { r with hooks := (applyHookState r.hooks key v).1 } ws]
      exact applyHookState_kinds r.hooks key v
    · rw [if_neg hfound]
      exact ih r _

theorem applyHookEntries_warns (es : List (String × Nat)) :
    ∀ (r : Runner) (ws : List String) (K : String) (w : Nat),
      (K, w) ∈ es → (∀ x ∈ r.hooks, x.kind ≠ K) →
      warnMissing K ∈ (applyHookEntries es (r, ws)).2 := by
  induction es with
  | nil =>
    intro r ws K w hm
    cases hm
  | cons kv rest ih =>
    intro r ws K w hm hn
    obtain ⟨key, v⟩ := kv
    rcases List.mem_cons.1 hm with heq | hm
    · obtain ⟨h1, h2⟩ := Prod.mk.injEq .. ▸ heq
      rw [applyHookEntries]
      have hnf : applyHookState r.hooks key v = (r.hooks, false) :=
        applyHookState_not_found r.hooks key v (h1 ▸ hn)
      rw [hnf]
      simp only [Bool.false_eq_true, if_false]
      obtain ⟨tail, htail⟩ := applyHookEntries_warnings_prefix rest r (ws ++ [warnMissing key])
      rw [htail, ← h1]
      exact List.mem_append_left _ (List.mem_append_right _ (List.mem_singleton.mpr rfl))
    · rw [applyHookEntries]
      by_cases hfound : (applyHookState r.hooks key v).2
      · rw [if_pos hfound]
        refine ih _ ws K w hm ?_
        exact no_kind_of_kinds_eq (applyHookState_kinds r.hooks key v).symm hn
      · rw [if_neg hfound]
        exact ih r _ K w hm hn

theorem applyHookEntries_preserves_entry (es : List (String × Nat)) :
    ∀ (r : Runner) (ws : List String) (K : String) (w : Nat),
      (∀ kv ∈ es, kv.1 ≠ K) → (∃ h2 ∈ r.hooks, h2.kind = K ∧ h2.state = some w) →
      ∃ h2 ∈ (applyHookEntries es (r, ws)).1.hooks, h2.kind = K ∧ h2.state = some w := by
  induction es with
  | nil =>
    intro r ws K w _ hex
    exact hex
  | cons kv rest ih =>
    intro r ws K w hne hex
    obtain ⟨key, v⟩ := kv
    have hkey : K ≠ key := by
      intro hkk
      exact hne (key, v) (List.mem_cons_self _ _) (by rw [hkk])
    rw [applyHookEntries]
    by_cases hfound : (applyHookState r.hooks key v).2
    · rw [if_pos hfound]
      refine ih _ ws K w (fun kv2 hkv2 => hne kv2 (List.mem_cons_of_mem _ hkv2)) ?_
      exact applyHookState_preserves hkey hex
    · rw [if_neg hfound]
      exact ih r _ K w (fun kv2 hkv2 => hne kv2 (List.mem_cons_of_mem _ hkv2)) hex

theorem applyHookEntries_applies (es : List (String × Nat)) :
    ∀ (r : Runner) (ws : List String) (K : String) (w : Nat),
      es.Pairwise (fun a b => a.1 ≠ b.1) → (K, w) ∈ es →
      (∃ h2 ∈ r.hooks, h2.kind = K) →
      ∃ h2 ∈ (applyHookEntries es (r, ws)).1.hooks, h2.kind = K ∧ h2.state = some w := by
  induction es with
  | nil =>
    intro r ws K w _ hm
    cases hm
  | cons kv rest ih =>
    intro r ws K w hpw hm hex
    obtain ⟨key, v⟩ := kv
    rw [List.pairwise_cons] at hpw
    obtain ⟨hhead, htail⟩ := hpw
    rcases List.mem_cons.1 hm with heq | hm
    · obtain ⟨h1, h2⟩ := Prod.mk.injEq .. ▸ heq
      subst h1
      subst h2
      obtain ⟨hprop, hfl⟩ := applyHookState_applies w hex
      rw [applyHookEntries, hfl]
      simp only [if_true]
      refine applyHookEntries_preserves_entry rest _ ws K w ?_ hprop
      intro kv2 hkv2
      exact (hhead kv2 hkv2).symm
    · rw [applyHookEntries]
      by_cases hfound : (applyHookState r.hooks key v).2
      · rw [if_pos hfound]
        refine ih _ ws K w htail hm ?_
        obtain ⟨h2, hm2, hk2⟩ := hex
        have hmem : K ∈ (applyHookState r.hooks key v).1.map Hook.kind := by
          rw [applyHookState_kinds]
          exact List.mem_map.2 ⟨h2, hm2, hk2⟩
        obtain ⟨h3, hm3, hk3⟩ := List.mem_map.1 hmem
        exact ⟨h3, hm3, hk3⟩
      · rw [if_neg hfound]
        exact ih r _ K w htail hm hex

/-- Claim C5: during restore, a snapshot entry whose kind matches no
registered hook produces the non-fatal warning naming that kind, while every
entry with a matching registered hook is still applied (some hook of that
kind ends up holding the entry's state), and the restore completes with the
counters overwritten. -/
theorem c5_restore_unmatched_kind (r : Runner) (sd : StateDict)
    (hk : sd.hooks.Pairwise (fun a b => a.1 ≠ b.1)) :
    (∀ K w, (K, w) ∈ sd.hooks → (∀ x ∈ r.hooks, x.kind ≠ K) →
      warnMissing K ∈ (load_state_dict r sd).2) ∧
    (∀ K w, (K, w) ∈ sd.hooks → (∃ h2 ∈ r.hooks, h2.kind = K) →
      ∃ h2 ∈ (load_state_dict r sd).1.hooks, h2.kind = K ∧ h2.state = some w) ∧
    (load_state_dict r sd).1.iter = sd.iter ∧ (load_state_dict r sd).1.epoch = sd.epoch := by
  refine ⟨?_, ?_, (load_state_dict_counters r sd).1, (load_state_dict_counters r sd).2.1⟩
  · intro K w hm hn
    exact applyHookEntries_warns sd.hooks _ [] K w hm hn
  · intro K w hm hex
    exact applyHookEntries_applies sd.hooks _ [] K w hk hm hex

theorem c5_restore_unmatched_kind_witness :
    (∀ K w, (K, w) ∈ sdW.hooks → (∀ x ∈ runnerDup.hooks, x.kind ≠ K) →
      warnMissing K ∈ (load_state_dict runnerDup sdW).2) ∧
    (∀ K w, (K, w) ∈ sdW.hooks → (∃ h2 ∈ runnerDup.hooks, h2.kind = K) →
      ∃ h2 ∈ (load_state_dict runnerDup sdW).1.hooks, h2.kind = K ∧ h2.state = some w) ∧
    (load_state_dict runnerDup sdW).1.iter = sdW.iter ∧
    (load_state_dict runnerDup sdW).1.epoch = sdW.epoch :=
  c5_restore_unmatched_kind runnerDup sdW (by decide)

/-- Claim C10: each snapshot entry is delivered to at most one registered
hook: the registry scan of `load_state_dict` leaves the list unchanged when
no hook has the entry's kind, rewrites exactly the first hook of that kind
otherwise, and on the runner holding two hooks of kind H only the
first-registered one receives the restored state. -/
theorem c10_entry_delivered_once (hs : List Hook) (K : String) (v : Nat) :
    ((∀ x ∈ hs, x.kind ≠ K) → applyHookState hs K v = (hs, false)) ∧
    (∀ pre h post, hs = pre ++ h :: post → h.kind = K → (∀ x ∈ pre, x.kind ≠ K) →
      applyHookState hs K v = (pre ++ { h with state := some v } :: post, true)) ∧
    (load_state_dict runnerDup
        { iter := 0, epoch := 0, optimizer := 0, hooks := [("H", 9)] }).1.hooks
      = [{ kind := "H", priority := some 10, state := some 9 }, hookH2] := by
  refine ⟨applyHookState_not_found hs K v, ?_, by decide⟩
  rintro pre h post rfl hkk hpre
  exact applyHookState_found pre h post K v hpre hkk


theorem applyHookState_sim {K : String} {w : Nat} :
    ∀ {hs0 cur : List Hook},
      List.Forall₂ (fun a b => b.kind = a.kind ∧ ∀ v, a.state = some v → b.state = some v)
        hs0 cur →
      (∀ h, hs0.find? (fun x => x.kind == K) = some h →
        h.state = none ∨ h.state = some w) →
      List.Forall₂ (fun a b => b.kind = a.kind ∧ ∀ v, a.state = some v → b.state = some v)
        hs0 (applyHookState cur K w).1 := by
  intro hs0 cur hsim
  induction hsim with
  | nil =>
    intro _
    exact List.Forall₂.nil
  | cons hab htl ih =>
    intro hp
    rename_i a b as bs
    by_cases hkk : (b.kind == K) = true
    · rw [applyHookState, if_pos hkk]
      refine List.Forall₂.cons ⟨hab.1, ?_⟩ htl
      intro v hav
      have hfind : (a :: as).find? (fun x => x.kind == K) = some a := by
        rw [List.find?_cons_of_pos]
        rw [beq_iff_eq]
        rw [← hab.1]
        exact beq_iff_eq.mp hkk
      rcases hp a hfind with hnone | hsome
      · rw [hav] at hnone
        cases hnone
      · rw [hav] at hsome
        simp only
        rw [← hsome]
    · rw [applyHookState, if_neg hkk]
      refine List.Forall₂.cons hab ?_
      refine ih ?_
      intro h hfind
      refine hp h ?_
      rw [List.find?_cons_of_neg]
      · exact hfind
      · rw [← hab.1]
        exact fun hc => hkk hc

theorem applyHookEntries_sim (es : List (String × Nat)) :
    ∀ (hs0 : List Hook) (r : Runner) (ws : List String),
      List.Forall₂ (fun a b => b.kind = a.kind ∧ ∀ v, a.state = some v → b.state = some v)
        hs0 r.hooks →
      (∀ kv ∈ es, ∀ h, hs0.find? (fun x => x.kind == kv.1) = some h →
        h.state = none ∨ h.state = some kv.2) →
      List.Forall₂ (fun a b => b.kind = a.kind ∧ ∀ v, a.state = some v → b.state = some v)
        hs0 (applyHookEntries es (r, ws)).1.hooks := by
  induction es with
  | nil =>
    intro hs0 r ws hsim _
    exact hsim
  | cons kv rest ih =>
    intro hs0 r ws hsim hp
    obtain ⟨key, v⟩ := kv
    rw [applyHookEntries]
    by_cases hfound : (applyHookState r.hooks key v).2
    · rw [if_pos hfound]
      refine ih hs0 _ ws ?_ (fun kv2 hkv2 => hp kv2 (List.mem_cons_of_mem _ hkv2))
      exact applyHookState_sim hsim (hp (key, v) (List.mem_cons_self _ _))
    · rw [if_neg hfound]
      exact ih hs0 r _ hsim (fun kv2 hkv2 => hp kv2 (List.mem_cons_of_mem _ hkv2))

theorem find_first_of_firstExported (hs : List Hook) (K : String) (w : Nat) :
    firstExported hs K = some w →
    ∀ h, hs.find? (fun x => x.kind == K) = some h →
      h.state = none ∨ h.state = some w := by
  induction hs with
  | nil =>
    intro hfe
    cases hfe
  | cons a as ih =>
    intro hfe h hfind
    by_cases hkk : (a.kind == K) = true
    · have hkk2 : (fun x : Hook => x.kind == K) a = true := hkk
      rw [List.find?_cons_of_pos as hkk2] at hfind
      cases hfind
      cases hstate : a.state with
      | none => exact Or.inl rfl
      | some v =>
        simp only [firstExported, hstate, if_pos hkk] at hfe
        exact Or.inr hfe
    · have hkk2 : ¬ (fun x : Hook => x.kind == K) a = true := hkk
      rw [List.find?_cons_of_neg as (by simpa using hkk2)] at hfind
      cases hstate : a.state with
      | none =>
        simp only [firstExported, hstate] at hfe
        exact ih hfe h hfind
      | some v =>
        simp only [firstExported, hstate, if_neg hkk] at hfe
        exact ih hfe h hfind

/-- Claim C3: restoring the snapshot `state_dict` produced applies it back
onto a runner carrying the same registered hook set: the counters come back
identical, the registry keeps its kinds, length and order, and every hook
whose exported state was non-empty exports exactly the same state again. -/
theorem c3_snapshot_restore_roundtrip (r r2 : Runner) (hhooks : r2.hooks = r.hooks) :
    (load_state_dict r2 (state_dict r)).1.iter = r.iter ∧
    (load_state_dict r2 (state_dict r)).1.epoch = r.epoch ∧
    List.Forall₂ (fun a b => b.kind = a.kind ∧ ∀ v, a.state = some v → b.state = some v)
      r.hooks (load_state_dict r2 (state_dict r)).1.hooks := by
  refine ⟨(load_state_dict_counters r2 (state_dict r)).1,
    (load_state_dict_counters r2 (state_dict r)).2.1, ?_⟩
  rw [load_state_dict]
  refine applyHookEntries_sim (state_dict r).hooks r.hooks _ [] ?_ ?_
  · show List.Forall₂ _ r.hooks r2.hooks
    rw [hhooks]
    rw [List.forall₂_same]
    exact fun a _ => ⟨rfl, fun v hv => hv⟩
  · rintro ⟨K, w⟩ hkv
    obtain hfe : firstExported r.hooks K = some w := by
      rcases mem_hooksStateAux r.hooks [] K w hkv with hin | ⟨_, hfe⟩
      · cases hin
      · exact hfe
    exact find_first_of_firstExported r.hooks K w hfe

theorem c3_snapshot_restore_roundtrip_witness :
    (load_state_dict runnerDupShift (state_dict runnerDup)).1.iter = runnerDup.iter ∧
    (load_state_dict runnerDupShift (state_dict runnerDup)).1.epoch = runnerDup.epoch ∧
    List.Forall₂ (fun a b => b.kind = a.kind ∧ ∀ v, a.state = some v → b.state = some v)
      runnerDup.hooks (load_state_dict runnerDupShift (state_dict runnerDup)).1.hooks :=
  c3_snapshot_restore_roundtrip runnerDup runnerDupShift (by decide)

end Detecter
